import Mathlib

/-!
Verification of the chunked scan-simulation engine of `instrument.py`
(classes `Instrument` and `ScanStrategy`).

The embedding below translates the relevant methods into Lean:

* sample indices and chunk bookkeeping use `ℕ` (the Python code uses ints);
* the rotation chunk size `rot_chunk_size = period * fsamp` is taken to be an
  integer number of samples (`ℕ`); the Python code stores it as a float but all
  claims about it concern whole samples, and `int(...)`/`np.ceil(...)` coincide
  with the exact integer operations in that case;
* float quantities that the claims reason about exactly (angles, azimuth,
  coordinates) are modelled by `ℝ` (trigonometry) or `ℚ` (coordinates and
  sample counts), with Python `int()` truncation made explicit;
* Python exceptions (`ZeroDivisionError`, `AttributeError`, `ValueError`)
  are modelled with `Except`;
* the healpy spherical-harmonic collaborator is an external dependency and is
  modelled as a bundle of abstract functions (`HpOps`).
-/

/-- A chunk of the sample timeline, inclusive sample indices.
Mirrors the Python dicts `dict(start=..., end=...)`. -/
structure Chunk where
  start : ℕ
  «end» : ℕ
deriving DecidableEq, Repr

/-- Length in samples of a chunk: `chunk['end'] - chunk['start'] + 1`. -/
def chunkLen (c : Chunk) : ℕ := c.«end» - c.start + 1

/-- `ScanStrategy.partition_mission(chunksize)`: divide `nsamp` samples into
chunks of `chunksize` samples, the final chunk possibly smaller.  The source
first clamps `chunksize` to `nsamp`, computes `nchunks = ceil(nsamp/chunksize)`
and then emits chunks `[start, start+chunksize-1]` clamped to `nsamp-1`,
with `start` stepping by `chunksize`. -/
def partition_mission (nsamp chunksize : ℕ) : List Chunk :=
  let cs := if chunksize ≥ nsamp then nsamp else chunksize
  let nchunks := (nsamp + cs - 1) / cs
  (List.range nchunks).map (fun k =>
    let s := k * cs
    let e := s + cs - 1
    let e := if e ≥ nsamp - 1 then nsamp - 1 else e
    { start := s, «end» := e })

/-- The clamped chunk size used internally by `partition_mission`. -/
def pmCs (nsamp chunksize : ℕ) : ℕ := if chunksize ≥ nsamp then nsamp else chunksize

/-- Number of chunks produced by `partition_mission`. -/
def pmN (nsamp chunksize : ℕ) : ℕ :=
  (nsamp + pmCs nsamp chunksize - 1) / pmCs nsamp chunksize

lemma partition_mission_length (nsamp chunksize : ℕ) :
    (partition_mission nsamp chunksize).length = pmN nsamp chunksize := by
  simp [partition_mission, pmN, pmCs]

lemma partition_mission_getD (nsamp chunksize i : ℕ)
    (hi : i < pmN nsamp chunksize) :
    (partition_mission nsamp chunksize).getD i ⟨0, 0⟩ =
      { start := i * pmCs nsamp chunksize,
        «end» := if i * pmCs nsamp chunksize + pmCs nsamp chunksize - 1 ≥ nsamp - 1
                 then nsamp - 1
                 else i * pmCs nsamp chunksize + pmCs nsamp chunksize - 1 } := by
  rw [List.getD_eq_getElem?_getD]
  rw [List.getElem?_eq_getElem (by simpa [partition_mission_length] using hi)]
  simp [partition_mission, pmCs, List.getElem_map, List.getElem_range]

section PartitionArith

variable (nsamp chunksize : ℕ)

lemma pmCs_pos (hn : 0 < nsamp) (hc : 0 < chunksize) : 0 < pmCs nsamp chunksize := by
  unfold pmCs; split <;> omega

lemma pmCs_le : pmCs nsamp chunksize ≤ nsamp := by
  unfold pmCs; split <;> omega

/-- `ceil(nsamp/cs) = (nsamp-1)/cs + 1` for positive `nsamp`, `cs`. -/
lemma pmN_eq (hn : 0 < nsamp) (hc : 0 < chunksize) :
    pmN nsamp chunksize = (nsamp - 1) / pmCs nsamp chunksize + 1 := by
  have hcs := pmCs_pos nsamp chunksize hn hc
  unfold pmN
  have h1 : nsamp + pmCs nsamp chunksize - 1 = (nsamp - 1) + pmCs nsamp chunksize := by
    omega
  rw [h1, Nat.add_div_right _ hcs]

lemma pmN_pos (hn : 0 < nsamp) (hc : 0 < chunksize) : 0 < pmN nsamp chunksize := by
  rw [pmN_eq nsamp chunksize hn hc]; exact Nat.succ_pos _

/-- All samples before the last chunk fit: `(pmN - 1) * cs ≤ nsamp - 1`. -/
lemma pm_last_start_le (hn : 0 < nsamp) (hc : 0 < chunksize) :
    (pmN nsamp chunksize - 1) * pmCs nsamp chunksize ≤ nsamp - 1 := by
  rw [pmN_eq nsamp chunksize hn hc]
  simpa using Nat.div_mul_le_self (nsamp - 1) (pmCs nsamp chunksize)

/-- The chunks reach the end of the mission: `nsamp ≤ pmN * cs`. -/
lemma pm_covers (hn : 0 < nsamp) (hc : 0 < chunksize) :
    nsamp ≤ pmN nsamp chunksize * pmCs nsamp chunksize := by
  have hcs := pmCs_pos nsamp chunksize hn hc
  rw [pmN_eq nsamp chunksize hn hc]
  have h1 := Nat.div_add_mod (nsamp - 1) (pmCs nsamp chunksize)
  have h2 := Nat.mod_lt (nsamp - 1) hcs
  have h3 : ((nsamp - 1) / pmCs nsamp chunksize + 1) * pmCs nsamp chunksize =
      pmCs nsamp chunksize * ((nsamp - 1) / pmCs nsamp chunksize) + pmCs nsamp chunksize := by
    ring
  omega

/-- If the clamp was applied (`chunksize ≥ nsamp`) there is exactly one chunk. -/
lemma pmN_eq_one (hn : 0 < nsamp) (hge : chunksize ≥ nsamp) : pmN nsamp chunksize = 1 := by
  have h1 : pmCs nsamp chunksize = nsamp := by unfold pmCs; split <;> omega
  unfold pmN
  rw [h1]
  exact Nat.div_eq_of_lt_le (by omega) (by omega)

end PartitionArith

lemma pm_cs_eq_chunksize (nsamp chunksize : ℕ) (hn : 0 < nsamp) (hc : 0 < chunksize)
    (h2 : 2 ≤ pmN nsamp chunksize) : pmCs nsamp chunksize = chunksize := by
  by_cases hge : chunksize ≥ nsamp
  · have := pmN_eq_one nsamp chunksize hn hge; omega
  · unfold pmCs; split <;> omega

lemma pm_chunk_start (nsamp chunksize i : ℕ) (hi : i < pmN nsamp chunksize) :
    ((partition_mission nsamp chunksize).getD i ⟨0, 0⟩).start = i * pmCs nsamp chunksize := by
  rw [partition_mission_getD nsamp chunksize i hi]

lemma pm_chunk_end_mid (nsamp chunksize i : ℕ) (hn : 0 < nsamp) (hc : 0 < chunksize)
    (hi : i + 1 < pmN nsamp chunksize) :
    ((partition_mission nsamp chunksize).getD i ⟨0, 0⟩).«end» =
      i * pmCs nsamp chunksize + pmCs nsamp chunksize - 1 := by
  have hcs := pmCs_pos nsamp chunksize hn hc
  have hlast := pm_last_start_le nsamp chunksize hn hc
  have hmul : (i + 1) * pmCs nsamp chunksize ≤
      (pmN nsamp chunksize - 1) * pmCs nsamp chunksize :=
    Nat.mul_le_mul_right _ (by omega)
  have hstep : (i + 1) * pmCs nsamp chunksize =
      i * pmCs nsamp chunksize + pmCs nsamp chunksize := by ring
  rw [partition_mission_getD nsamp chunksize i (by omega)]
  have hcond : ¬ (i * pmCs nsamp chunksize + pmCs nsamp chunksize - 1 ≥ nsamp - 1) := by
    omega
  simp only [hcond, if_false]

lemma pm_chunk_end_last (nsamp chunksize : ℕ) (hn : 0 < nsamp) (hc : 0 < chunksize) :
    ((partition_mission nsamp chunksize).getD (pmN nsamp chunksize - 1) ⟨0, 0⟩).«end» =
      nsamp - 1 := by
  have hcs := pmCs_pos nsamp chunksize hn hc
  have hpos := pmN_pos nsamp chunksize hn hc
  have hcov := pm_covers nsamp chunksize hn hc
  have hstep : pmN nsamp chunksize * pmCs nsamp chunksize =
      (pmN nsamp chunksize - 1) * pmCs nsamp chunksize + pmCs nsamp chunksize := by
    obtain ⟨m, hm⟩ : ∃ m, pmN nsamp chunksize = m + 1 :=
      ⟨_, (Nat.succ_pred_eq_of_pos hpos).symm⟩
    rw [hm]; simp [Nat.succ_mul]
  rw [partition_mission_getD nsamp chunksize _ (by omega)]
  have hcond : (pmN nsamp chunksize - 1) * pmCs nsamp chunksize + pmCs nsamp chunksize - 1 ≥
      nsamp - 1 := by omega
  simp only [hcond, if_true]

/-- The partition properties claimed for `partition_mission`: contiguous,
non-overlapping, covering `[0, nsamp)`, all chunks but the last of length
`chunksize`, last chunk of length `nsamp - (n-1)*chunksize ≥ 1`, and a single
chunk when `chunksize ≥ nsamp`. -/
def PartitionMissionOk (nsamp chunksize : ℕ) : Prop :=
  let cks := partition_mission nsamp chunksize
  let n := cks.length
  0 < n ∧
  (cks.getD 0 ⟨0, 0⟩).start = 0 ∧
  (cks.getD (n - 1) ⟨0, 0⟩).«end» = nsamp - 1 ∧
  (∀ i, i < n → (cks.getD i ⟨0, 0⟩).start ≤ (cks.getD i ⟨0, 0⟩).«end») ∧
  (∀ i, i + 1 < n →
    (cks.getD (i + 1) ⟨0, 0⟩).start = (cks.getD i ⟨0, 0⟩).«end» + 1) ∧
  (∀ i, i + 1 < n → chunkLen (cks.getD i ⟨0, 0⟩) = chunksize) ∧
  chunkLen (cks.getD (n - 1) ⟨0, 0⟩) = nsamp - (n - 1) * chunksize ∧
  1 ≤ nsamp - (n - 1) * chunksize ∧
  (chunksize ≥ nsamp → cks = [⟨0, nsamp - 1⟩])

/-- C2: for every `nsamp > 0` and `chunksize > 0`, `partition_mission` returns
an ordered, contiguous, non-overlapping cover of `[0, nsamp)`; all chunks but
the last have length `chunksize`, the last has length
`nsamp - (n-1)*chunksize ≥ 1`; `chunksize ≥ nsamp` gives the single chunk
`{start: 0, end: nsamp-1}`; and `nsamp = 250`, `chunksize = 100` gives
`(0,99),(100,199),(200,249)`. -/
theorem partition_mission_ok (nsamp chunksize : ℕ)
    (hn : 0 < nsamp) (hc : 0 < chunksize) :
    PartitionMissionOk nsamp chunksize ∧
    partition_mission 250 100 =
      [⟨0, 99⟩, ⟨100, 199⟩, ⟨200, 249⟩] := by
  have hcs := pmCs_pos nsamp chunksize hn hc
  have hN := pmN_pos nsamp chunksize hn hc
  have hlast := pm_last_start_le nsamp chunksize hn hc
  have hcov := pm_covers nsamp chunksize hn hc
  have hlen := partition_mission_length nsamp chunksize
  constructor
  · refine ⟨by omega, ?_, ?_, ?_, ?_, ?_, ?_, ?_, ?_⟩
    · -- first chunk starts at 0
      rw [pm_chunk_start nsamp chunksize 0 hN]
      simp
    · -- last chunk reaches nsamp - 1
      rw [hlen, pm_chunk_end_last nsamp chunksize hn hc]
    · -- every chunk is nonempty
      intro i hi
      rw [hlen] at hi
      rw [pm_chunk_start nsamp chunksize i hi,
          partition_mission_getD nsamp chunksize i hi]
      have hmul : i * pmCs nsamp chunksize ≤
          (pmN nsamp chunksize - 1) * pmCs nsamp chunksize :=
        Nat.mul_le_mul_right _ (by omega)
      dsimp only
      split <;> omega
    · -- contiguity
      intro i hi
      rw [hlen] at hi
      rw [pm_chunk_start nsamp chunksize (i + 1) hi,
          pm_chunk_end_mid nsamp chunksize i hn hc hi]
      have hmul : (i + 1) * pmCs nsamp chunksize ≤
          (pmN nsamp chunksize - 1) * pmCs nsamp chunksize :=
        Nat.mul_le_mul_right _ (by omega)
      have hstep : (i + 1) * pmCs nsamp chunksize =
          i * pmCs nsamp chunksize + pmCs nsamp chunksize := by ring
      omega
    · -- all chunks but the last have length chunksize
      intro i hi
      rw [hlen] at hi
      have hcseq : pmCs nsamp chunksize = chunksize :=
        pm_cs_eq_chunksize nsamp chunksize hn hc (by omega)
      unfold chunkLen
      rw [pm_chunk_start nsamp chunksize i (by omega),
          pm_chunk_end_mid nsamp chunksize i hn hc hi, hcseq]
      have : 0 < chunksize := hc
      omega
    · -- last chunk length
      rw [hlen]
      unfold chunkLen
      rw [pm_chunk_start nsamp chunksize _ (by omega),
          pm_chunk_end_last nsamp chunksize hn hc]
      rcases Nat.lt_or_ge (pmN nsamp chunksize) 2 with h2 | h2
      · have h1 : pmN nsamp chunksize = 1 := by omega
        rw [h1]; simp; omega
      · rw [pm_cs_eq_chunksize nsamp chunksize hn hc h2] at hlast hcov ⊢
        omega
    · -- last chunk length is at least 1
      rw [hlen]
      rcases Nat.lt_or_ge (pmN nsamp chunksize) 2 with h2 | h2
      · have h1 : pmN nsamp chunksize = 1 := by omega
        rw [h1]; simpa using hn
      · rw [pm_cs_eq_chunksize nsamp chunksize hn hc h2] at hlast
        omega
    · -- single chunk when chunksize ≥ nsamp
      intro hge
      have h1 : pmN nsamp chunksize = 1 := pmN_eq_one nsamp chunksize hn hge
      have hl1 : (partition_mission nsamp chunksize).length = 1 := by rw [hlen, h1]
      obtain ⟨a, ha⟩ := List.length_eq_one.mp hl1
      have hget : (partition_mission nsamp chunksize).getD 0 ⟨0, 0⟩ = a := by
        rw [ha]; rfl
      rw [partition_mission_getD nsamp chunksize 0 (by omega)] at hget
      have hcseq : pmCs nsamp chunksize = nsamp := by unfold pmCs; split <;> omega
      rw [hcseq] at hget
      have hcnd : 0 * nsamp + nsamp - 1 ≥ nsamp - 1 := by omega
      simp only [hcnd, if_true] at hget
      rw [ha, ← hget]
      simp
  · decide

/-- Witness for `partition_mission_ok` at `nsamp = 250`, `chunksize = 100`. -/
theorem partition_mission_ok_witness :
    0 < 250 ∧ 0 < 100 ∧
    (PartitionMissionOk 250 100 ∧
      partition_mission 250 100 = [⟨0, 99⟩, ⟨100, 199⟩, ⟨200, 249⟩]) :=
  ⟨by decide, by decide, partition_mission_ok 250 100 (by decide) (by decide)⟩

/-- The loop of `ScanStrategy.subpart_chunk`: `fuel` is the number of
remaining iterations, `s` the running `start`, `rem` the mutable
`rot_dict['remainder']`, `first` whether this is the iteration with
`sidx == 0`.  Mirrors the source: the first piece ends at
`start + remainder` when a nonzero remainder was carried in, every other piece
at `start + rot_chunk_size - 1`; a piece overshooting the chunk is truncated
to the chunk end, storing `end - chunk_end + 1` as the new remainder; `start`
always advances by `rot_chunk_size`. -/
def subpartLoop (R cEnd : ℕ) : ℕ → ℕ → ℕ → Bool → List Chunk × ℕ
  | 0, _, rem, _ => ([], rem)
  | fuel + 1, s, rem, first =>
      let e0 := if first = true ∧ rem ≠ 0 then s + rem else s + R - 1
      let p := if e0 > cEnd then (cEnd, e0 - cEnd + 1) else (e0, rem)
      let rest := subpartLoop R cEnd fuel (s + R) p.2 false
      (⟨s, p.1⟩ :: rest.1, rest.2)

/-- `ScanStrategy.subpart_chunk`: sub-partition a chunk into rotation-period
pieces.  `R` is `rot_chunk_size = period * fsamp` in samples (the source holds
it as a float; we consider configurations where it is a whole number of
samples, in which case the source's `int(...)` and `np.ceil(...)` agree with
the integer operations used here).  `R = 0` models an unset rotation period
(`if not period`).  Returns the sub-chunk list together with the remainder
state after the call. -/
def subpart_chunk (R rem : ℕ) (c : Chunk) : List Chunk × ℕ :=
  if R = 0 then ([c], rem)
  else
    let chunksize := chunkLen c
    if R > chunksize then ([c], rem)
    else
      let nchunks := (chunksize + R - 1) / R
      subpartLoop R c.«end» nchunks c.start rem true

/-- C4: the claimed invariant `0 ≤ remainder < rotation_chunk_samples` is
violated by the code, and the stored leftover is off by one.  With
`rotation_chunk_samples = 2`, incoming remainder `0` and chunk `{0, 4}`, the
final piece `{4, 5}` is truncated at the chunk boundary leaving 1 unconsumed
sample, but the code stores `end - chunk_end + 1 = 2`, which equals
`rotation_chunk_samples` instead of being strictly below it. -/
theorem subpart_chunk_remainder_bug :
    subpart_chunk 2 0 ⟨0, 4⟩ = ([⟨0, 1⟩, ⟨2, 3⟩, ⟨4, 4⟩], 2) ∧
    ¬ ((subpart_chunk 2 0 ⟨0, 4⟩).2 < 2) ∧
    (subpart_chunk 2 0 ⟨0, 4⟩).2 ≠ 1 := by
  refine ⟨by decide, by decide, by decide⟩

/-- Modelled from the spec: `tools.angle_gen` (module `tools.py` is not among
the sources).  Spec §9 describes it as a cyclic cursor over an immutable
ordered angle sequence with modular index advance, and `set_instr_rot`
documents the default as cycling through 45-degree steps.  `angleSeq angles k`
is the value produced by the k-th `next()` call, counting from 0. -/
def angleSeq (angles : List ℚ) (k : ℕ) : ℚ := angles.getD (k % angles.length) 0

/-- The per-sub-chunk rotation step of `scan_instrument`: for each sub-chunk
in order, if rotation is enabled (`rot_dict['period']` truthy, i.e. `R ≠ 0`)
the instrument angle becomes the next generator value.  Returns the
(sub-chunk, angle-in-effect) pairs plus the updated generator cursor and
current angle. -/
def scanSubchunks (R : ℕ) (angles : List ℚ) :
    List Chunk → ℕ → ℚ → List (Chunk × ℚ) × ℕ × ℚ
  | [], gen, ang => ([], gen, ang)
  | sc :: rest, gen, ang =>
      let ang1 := if R ≠ 0 then angleSeq angles gen else ang
      let gen1 := if R ≠ 0 then gen + 1 else gen
      let r := scanSubchunks R angles rest gen1 ang1
      ((sc, ang1) :: r.1, r.2)

/-- The rotation state carried across `scan_instrument` chunks: the remainder
of `rot_dict`, the angle generator cursor, and the current rotation angle. -/
structure RotSt where
  rem : ℕ
  gen : ℕ
  angle : ℚ
deriving DecidableEq, Repr

/-- `scan_instrument` restricted to its rotation bookkeeping: process chunks
in order, sub-partitioning each (updating the carried remainder) and advancing
the rotation angle once per sub-chunk. -/
def processChunks (R : ℕ) (angles : List ℚ) :
    List Chunk → RotSt → List (Chunk × ℚ) × RotSt
  | [], st => ([], st)
  | c :: cs, st =>
      let sp := subpart_chunk R st.rem c
      let sr := scanSubchunks R angles sp.1 st.gen st.angle
      let r := processChunks R angles cs ⟨sp.2, sr.2.1, sr.2.2⟩
      (sr.1 ++ r.1, r.2)

/-- The rotation angle in effect for sample `s`: the angle attached to the
last processed sub-chunk containing `s` (sub-chunks are processed in order,
each recomputing the TOD of its sample range), or the starting angle if no
sub-chunk contains `s`. -/
def rotAngleAt (pairs : List (Chunk × ℚ)) (startAng : ℚ) (s : ℕ) : ℚ :=
  pairs.foldl (fun acc p => if p.1.start ≤ s ∧ s ≤ p.1.«end» then p.2 else acc) startAng

/-- Per-sample rotation-angle trajectory of a mission processed as the given
chunk list, starting from the freshly initialized rotation state of
`set_instr_rot` (remainder 0, cursor 0, angle `startAng`). -/
def rotTraj (R : ℕ) (angles : List ℚ) (startAng : ℚ) (chunks : List Chunk) (s : ℕ) : ℚ :=
  rotAngleAt (processChunks R angles chunks ⟨0, 0, startAng⟩).1 startAng s

/-- The default instrument-rotation angle list of `set_instr_rot` with
`start_ang = 0`: `np.arange(0, 360, 45) mod 360`. -/
def defaultRotAngles : List ℚ := [0, 45, 90, 135, 180, 225, 270, 315]

/-- C1: processing a 10-sample span as one chunk versus as two consecutive
5-sample chunks (remainder carried across the boundary) yields different
rotation-angle trajectories: with a rotation period of 4 samples, sample 5
gets angle 45° in the single-chunk run but 90° in the two-chunk run, because
the truncated remainder is stored one sample too large and is not cleared
after being consumed. -/
theorem split_vs_whole_rotation_bug :
    rotTraj 4 defaultRotAngles 0 (partition_mission 10 10) 5 = 45 ∧
    rotTraj 4 defaultRotAngles 0 (partition_mission 10 5) 5 = 90 ∧
    (45 : ℚ) ≠ 90 := by
  refine ⟨by decide, by decide, by decide⟩

lemma pm_chunk_end_le (nsamp chunksize i : ℕ) (hi : i < pmN nsamp chunksize) :
    ((partition_mission nsamp chunksize).getD i ⟨0, 0⟩).«end» ≤
      i * pmCs nsamp chunksize + pmCs nsamp chunksize - 1 := by
  rw [partition_mission_getD nsamp chunksize i hi]
  dsimp only
  split <;> omega

lemma pm_chunk0_len (nsamp chunksize : ℕ) (hn : 0 < nsamp) (hc : 0 < chunksize) :
    chunkLen ((partition_mission nsamp chunksize).getD 0 ⟨0, 0⟩) = pmCs nsamp chunksize := by
  have hcs := pmCs_pos nsamp chunksize hn hc
  have hle := pmCs_le nsamp chunksize
  rw [partition_mission_getD nsamp chunksize 0 (pmN_pos nsamp chunksize hn hc)]
  unfold chunkLen
  dsimp only
  split <;> omega

lemma pm_chunk_len_mid (nsamp chunksize i : ℕ) (hn : 0 < nsamp) (hc : 0 < chunksize)
    (hi : i + 1 < pmN nsamp chunksize) :
    chunkLen ((partition_mission nsamp chunksize).getD i ⟨0, 0⟩) = pmCs nsamp chunksize := by
  have hcs := pmCs_pos nsamp chunksize hn hc
  unfold chunkLen
  rw [pm_chunk_start nsamp chunksize i (by omega),
      pm_chunk_end_mid nsamp chunksize i hn hc hi]
  omega

/-- The sub-chunk → boresight-trajectory index mapping of `ScanStrategy.scan`.
`qboreLen` is the length of the cached boresight trajectory `q_bore`, i.e. the
length of the sub-chunk's parent chunk (populated by `constant_el_scan` for
that chunk); `s`, `e` are the sub-chunk's global sample bounds.  The source
also computes `shrt_len` (the last chunk's length) but never uses it. -/
def scan_qidx (chunks : List Chunk) (qboreLen s e : ℕ) : ℕ × ℕ :=
  let nrml_len := chunkLen (chunks.getD 0 ⟨0, 0⟩)
  if qboreLen = nrml_len then
    (s % nrml_len, s % nrml_len + e - s)
  else
    (s - (chunks.length - 1) * nrml_len, e - (chunks.length - 1) * nrml_len)

/-- The property claimed for the index mapping: the selected slice is the
sub-chunk's range translated to parent-chunk-local indices, and it has exactly
`e - s + 1` entries. -/
def ScanQidxOk (nsamp chunksize cidx s e : ℕ) : Prop :=
  let cks := partition_mission nsamp chunksize
  let c := cks.getD cidx ⟨0, 0⟩
  scan_qidx cks (chunkLen c) s e = (s - c.start, e - c.start) ∧
  (e - c.start) - (s - c.start) + 1 = e - s + 1

/-- C5: for every chunk produced by `partition_mission` (including a final,
shorter chunk) and every sub-chunk `{start, end}` of that chunk, `scan`
selects the boresight-trajectory slice `qidx_start = start - chunk_start`
through `qidx_end = end - chunk_start`, a slice of exactly `end - start + 1`
entries matching the sub-chunk's global sample range. -/
theorem scan_qidx_ok (nsamp chunksize cidx s e : ℕ)
    (hn : 0 < nsamp) (hc : 0 < chunksize)
    (hcidx : cidx < (partition_mission nsamp chunksize).length)
    (h1 : ((partition_mission nsamp chunksize).getD cidx ⟨0, 0⟩).start ≤ s)
    (h2 : s ≤ e)
    (h3 : e ≤ ((partition_mission nsamp chunksize).getD cidx ⟨0, 0⟩).«end») :
    ScanQidxOk nsamp chunksize cidx s e := by
  have hcs := pmCs_pos nsamp chunksize hn hc
  have hlen := partition_mission_length nsamp chunksize
  rw [hlen] at hcidx
  have hstart := pm_chunk_start nsamp chunksize cidx hcidx
  have hendle := pm_chunk_end_le nsamp chunksize cidx hcidx
  have h0len := pm_chunk0_len nsamp chunksize hn hc
  constructor
  · unfold scan_qidx
    rw [h0len, hlen]
    by_cases hb : chunkLen ((partition_mission nsamp chunksize).getD cidx ⟨0, 0⟩) =
        pmCs nsamp chunksize
    · rw [if_pos hb]
      have hmod : s % pmCs nsamp chunksize = s - cidx * pmCs nsamp chunksize := by
        have hs : s = (s - cidx * pmCs nsamp chunksize) + cidx * pmCs nsamp chunksize := by
          omega
        calc s % pmCs nsamp chunksize
            = ((s - cidx * pmCs nsamp chunksize) + cidx * pmCs nsamp chunksize) %
                pmCs nsamp chunksize := by rw [← hs]
          _ = (s - cidx * pmCs nsamp chunksize) % pmCs nsamp chunksize :=
                Nat.add_mul_mod_self_right _ _ _
          _ = s - cidx * pmCs nsamp chunksize := Nat.mod_eq_of_lt (by omega)
      rw [hmod, hstart]
      have : s - cidx * pmCs nsamp chunksize + e - s = e - cidx * pmCs nsamp chunksize := by
        omega
      rw [this]
    · rw [if_neg hb]
      have hlastidx : cidx = pmN nsamp chunksize - 1 := by
        by_contra hne
        exact hb (pm_chunk_len_mid nsamp chunksize cidx hn hc (by omega))
      rw [hstart, hlastidx]
  · omega

/-- Witness for `scan_qidx_ok`: sub-chunk `{205, 230}` of the final, shorter
chunk `{200, 249}` of a 250-sample mission with 100-sample chunks. -/
theorem scan_qidx_ok_witness :
    0 < 250 ∧ 0 < 100 ∧ 2 < (partition_mission 250 100).length ∧
    ((partition_mission 250 100).getD 2 ⟨0, 0⟩).start ≤ 205 ∧ 205 ≤ 230 ∧
    230 ≤ ((partition_mission 250 100).getD 2 ⟨0, 0⟩).«end» ∧
    ScanQidxOk 250 100 2 205 230 :=
  ⟨by decide, by decide, by decide, by decide, by decide, by decide,
   scan_qidx_ok 250 100 2 205 230 (by decide) (by decide) (by decide) (by decide)
     (by decide) (by decide)⟩




/-- Python truthiness of an optional float argument (`if lat:`): `None` and
`0.0` are falsy. -/
def pyTruthy (x : Option ℚ) : Bool :=
  match x with
  | none => false
  | some v => decide (v ≠ 0)

/-- The telescope location state set by `Instrument.__init__`. -/
structure InstrState where
  lat : ℚ
  lon : ℚ
deriving DecidableEq, Repr

deriving instance DecidableEq for Except

/-- The final check of `Instrument.__init__`:
`if not self.lat or not self.lon: raise ValueError(...)`, evaluated in
Python's left-to-right, short-circuit order; reading a never-assigned
attribute (`none`) raises `AttributeError` instead, and an assigned but
falsy (zero) coordinate raises the `ValueError`. -/
def locCheck (lat1 lon1 : Option ℚ) : Except String InstrState :=
  match lat1 with
  | none => Except.error "AttributeError"
  | some la =>
    if la = 0 then Except.error "ValueError: Specify location of telescope"
    else
      match lon1 with
      | none => Except.error "AttributeError"
      | some lo =>
        if lo = 0 then Except.error "ValueError: Specify location of telescope"
        else Except.ok ⟨la, lo⟩

/-- `Instrument.__init__(location, lat, lon)`: predefined locations seed
`self.lat`/`self.lon` (left unset for an unrecognized location string);
explicit arguments override only when truthy (`if lat:` / `if lon:`); finally
the `locCheck` guard runs. -/
def instrumentInit (location : String) (lat lon : Option ℚ) : Except String InstrState :=
  let lat0 : Option ℚ :=
    if location = "spole" then some (-89.9)
    else if location = "atacama" then some (-22.96) else none
  let lon0 : Option ℚ :=
    if location = "spole" then some 169.15
    else if location = "atacama" then some (-67.79) else none
  let lat1 : Option ℚ := if pyTruthy lat then lat else lat0
  let lon1 : Option ℚ := if pyTruthy lon then lon else lon0
  locCheck lat1 lon1

lemma locCheck_ok (a b : Option ℚ) (st : InstrState)
    (h : locCheck a b = Except.ok st) : st.lat ≠ 0 ∧ st.lon ≠ 0 := by
  cases a with
  | none => simp [locCheck] at h
  | some la =>
    by_cases hla : la = 0
    · simp [locCheck, hla] at h
    · cases b with
      | none => simp [locCheck, hla] at h
      | some lo =>
        by_cases hlo : lo = 0
        · simp [locCheck, hla, hlo] at h
        · simp only [locCheck, hla, hlo, if_false, Except.ok.injEq] at h
          rw [← h]
          exact ⟨hla, hlo⟩

/-- Python `int()` truncation toward zero, on exact rationals. -/
def pyInt (q : ℚ) : ℤ := if 0 ≤ q then ⌊q⌋ else ⌈q⌉

/-- The scan-relevant state set up by `ScanStrategy.__init__`. -/
structure ScanState where
  lat : ℚ
  lon : ℚ
  fsamp : ℚ
  mlen : ℚ
  nsamp : ℤ
deriving DecidableEq, Repr

/-- `ScanStrategy.__init__(duration, sample_rate, location, lat, lon)`:
initializes the instrument, then `set_sample_rate` stores
`fsamp = float(sample_rate)` and `set_mission_len` stores `mlen = duration`
and `nsamp = int(mlen * fsamp)` — with no validation of either value.  (The
qpoint/QMap setup, `set_ctime`, `set_instr_rot`, `set_hwp_mod` and
`set_nsides` touch external state or plain defaults and raise nothing for
these inputs.) -/
def scanStrategyInit (duration sample_rate : ℚ) (location : String)
    (lat lon : Option ℚ) : Except String ScanState :=
  match instrumentInit location lat lon with
  | Except.error e => Except.error e
  | Except.ok i =>
      let fsamp := sample_rate
      let mlen := duration
      let nsamp := pyInt (mlen * fsamp)
      Except.ok { lat := i.lat, lon := i.lon, fsamp := fsamp, mlen := mlen, nsamp := nsamp }

/-- C10: an explicitly passed `lat = 0` or `lon = 0` is silently ignored by
the truthiness gates `if lat:` / `if lon:` of `Instrument.__init__`, keeping
the predefined location's coordinate; consequently no successful construction
ever yields latitude 0 or longitude 0. -/
theorem instrument_zero_latlon_ignored :
    (∀ location lat lon st, instrumentInit location lat lon = Except.ok st →
      st.lat ≠ 0 ∧ st.lon ≠ 0) ∧
    (∀ lon, instrumentInit "spole" (some 0) lon = instrumentInit "spole" none lon) ∧
    (∀ lat, instrumentInit "spole" lat (some 0) = instrumentInit "spole" lat none) ∧
    (∀ lon, instrumentInit "atacama" (some 0) lon = instrumentInit "atacama" none lon) ∧
    (∀ lat, instrumentInit "atacama" lat (some 0) = instrumentInit "atacama" lat none) ∧
    instrumentInit "spole" (some 0) none = Except.ok ⟨-89.9, 169.15⟩ ∧
    instrumentInit "atacama" none (some 0) = Except.ok ⟨-22.96, -67.79⟩ := by
  refine ⟨?_, ?_, ?_, ?_, ?_, ?_, ?_⟩
  · intro location lat lon st h
    exact locCheck_ok _ _ st h
  · intro lon
    simp [instrumentInit, pyTruthy]
  · intro lat
    simp [instrumentInit, pyTruthy]
  · intro lon
    simp [instrumentInit, pyTruthy]
  · intro lat
    simp [instrumentInit, pyTruthy]
  · norm_num [instrumentInit, locCheck, pyTruthy]
  · norm_num [instrumentInit, locCheck, pyTruthy,
      show ("atacama" : String) ≠ "spole" by decide]

/-- Witness for `instrument_zero_latlon_ignored`: passing `lat = 0` at the
south-pole location keeps the predefined latitude. -/
theorem instrument_zero_latlon_ignored_witness :
    instrumentInit "spole" (some 0) (some 5) = Except.ok ⟨-89.9, 5⟩ ∧
    ((-89.9 : ℚ) ≠ 0 ∧ (5 : ℚ) ≠ 0) :=
  ⟨by norm_num [instrumentInit, locCheck, pyTruthy],
   instrument_zero_latlon_ignored.1 "spole" (some 0) (some 5) ⟨-89.9, 5⟩
     (by norm_num [instrumentInit, locCheck, pyTruthy])⟩

/-- C9 counterexample: constructing the scan system with mission duration
-1 s and sample rate 100 Hz at the default location raises nothing —
construction completes with `nsamp = int(-1 * 100) = -100`, a negative sample
count, refuting the claim that a non-positive duration is fatal at
construction. -/
theorem scan_init_nonpositive_duration_completes :
    scanStrategyInit (-1) 100 "spole" none none =
      Except.ok ⟨-89.9, 169.15, 100, -1, -100⟩ ∧
    (-100 : ℤ) < 0 := by
  constructor
  · norm_num [scanStrategyInit, instrumentInit, locCheck, pyTruthy, pyInt]
    rw [show ((-100 : ℚ)) = ((-100 : ℤ) : ℚ) by norm_num]
    exact Int.ceil_intCast _
  · norm_num

/-- C9 amended: an unset telescope location (unrecognized location string and
no truthy latitude argument) is fatal at construction, but duration and
sample rate are never validated: for EVERY duration and sample rate —
non-positive ones included — construction completes, storing
`nsamp = int(duration * sample_rate)`; whenever the duration is non-positive
with a non-negative rate, or the rate is non-positive with a non-negative
duration, the stored sample count is degenerate (`≤ 0`). -/
theorem scan_init_validation (d r : ℚ) :
    (∀ lat lon, pyTruthy lat = false →
      scanStrategyInit d r "mars" lat lon = Except.error "AttributeError") ∧
    scanStrategyInit d r "spole" none none =
      Except.ok ⟨-89.9, 169.15, r, d, pyInt (d * r)⟩ ∧
    ((d ≤ 0 ∧ 0 ≤ r) ∨ (0 ≤ d ∧ r ≤ 0) → pyInt (d * r) ≤ 0) := by
  refine ⟨?_, ?_, ?_⟩
  · intro lat lon hfalse
    simp [scanStrategyInit, instrumentInit, locCheck, hfalse,
      show ("mars" : String) ≠ "spole" by decide,
      show ("mars" : String) ≠ "atacama" by decide]
  · norm_num [scanStrategyInit, instrumentInit, locCheck, pyTruthy]
  · intro hcase
    have hdr : d * r ≤ 0 := by
      rcases hcase with h1 | h1
      · exact mul_nonpos_iff.mpr (Or.inr h1)
      · exact mul_nonpos_iff.mpr (Or.inl ⟨h1.1, h1.2⟩)
    unfold pyInt
    split
    · next h0 =>
        have hz : d * r = 0 := le_antisymm hdr h0
        rw [hz]
        simp
    · exact Int.ceil_le.mpr (by exact_mod_cast hdr)

/-- Witness for `scan_init_validation` at `duration = 10`,
`sample_rate = -1` — the non-positive-sample-rate case: construction
completes and `nsamp = int(10 * -1) = -10 ≤ 0`. -/
theorem scan_init_validation_witness :
    scanStrategyInit 10 (-1) "mars" none none = Except.error "AttributeError" ∧
    scanStrategyInit 10 (-1) "spole" none none =
      Except.ok ⟨-89.9, 169.15, -1, 10, pyInt (10 * (-1))⟩ ∧
    ((0 : ℚ) ≤ 10 ∧ (-1 : ℚ) ≤ 0) ∧
    pyInt ((10 : ℚ) * (-1)) ≤ 0 :=
  ⟨(scan_init_validation 10 (-1)).1 none none rfl,
   (scan_init_validation 10 (-1)).2.1,
   ⟨by norm_num, by norm_num⟩,
   (scan_init_validation 10 (-1)).2.2 (Or.inr ⟨by norm_num, by norm_num⟩)⟩

/-- Python error kinds raised inside `constant_el_scan`. -/
inductive PyErr
  | zeroDivision
deriving DecidableEq, Repr

/-- The azimuth formula of `constant_el_scan`'s triangle branch at sample
index `k`:
`az[k] = arcsin(sin(2π·k/scan_period/fsamp)) * (az_throw/π) + az0`
with `scan_period = 2*az_throw/scan_speed`.  Mirrors the source statements
`az = arcsin(sin(2π·arange(chunk_len)/scan_period/fsamp))`,
`az *= az_throw/pi`, `az += az0`. -/
noncomputable def cesAzFormula (az_throw scan_speed fsamp az0 : ℝ) (k : ℕ) : ℝ :=
  Real.arcsin (Real.sin (2 * Real.pi * k / (2 * az_throw / scan_speed) / fsamp)) *
    (az_throw / Real.pi) + az0

/-- The azimuth computation of `ScanStrategy.constant_el_scan` with the
triangle velocity profile, as a function of the sample index within the
chunk.  Python evaluates `scan_period = 2 * az_throw / float(scan_speed)`
first, raising `ZeroDivisionError` when `scan_speed == 0`; only then does the
`if scan_period == 0.` guard produce the constant array
`az = zeros(chunk_len) + az0`. -/
noncomputable def constant_el_scan_az (az_throw scan_speed fsamp az0 : ℝ) :
    Except PyErr (ℕ → ℝ) :=
  if scan_speed = 0 then Except.error PyErr.zeroDivision
  else
    if 2 * az_throw / scan_speed = 0 then Except.ok (fun _ => 0 + az0)
    else Except.ok (cesAzFormula az_throw scan_speed fsamp az0)

/-- C6 counterexample: `scan_speed = 0` (with the default `az_throw = 90`) is
not short-circuited — the code divides by `scan_speed` before the zero-period
check and raises `ZeroDivisionError` instead of producing a constant azimuth
array. -/
theorem constant_el_scan_zero_speed_raises :
    constant_el_scan_az 90 0 100 (-10) = Except.error PyErr.zeroDivision := by
  simp [constant_el_scan_az]

/-- C6 amended: the zero-scan-period short-circuit exists but guards
`scan_period = 2*az_throw/scan_speed = 0`, which (for `scan_speed ≠ 0`)
happens exactly when `az_throw = 0`; in that case the azimuth is held constant
at `az0` for every sample, with no division by zero.  `scan_speed = 0` itself
raises `ZeroDivisionError` (see the counterexample). -/
theorem constant_el_scan_zero_throw_constant (az_throw scan_speed fsamp az0 : ℝ)
    (ht : az_throw = 0) (hs : scan_speed ≠ 0) :
    constant_el_scan_az az_throw scan_speed fsamp az0 =
      Except.ok (fun _ => 0 + az0) := by
  subst ht
  simp [constant_el_scan_az, hs]

/-- Witness for `constant_el_scan_zero_throw_constant` at
`az_throw = 0`, `scan_speed = 1`. -/
theorem constant_el_scan_zero_throw_constant_witness :
    (0 : ℝ) = 0 ∧ (1 : ℝ) ≠ 0 ∧
    constant_el_scan_az 0 1 100 5 = Except.ok (fun _ => 0 + 5) :=
  ⟨rfl, by norm_num, constant_el_scan_zero_throw_constant 0 1 100 5 rfl (by norm_num)⟩

/-- C7 counterexample: at `az_throw = 2`, `scan_speed = 1`, `fsamp = 2`,
`az0 = 0`, sample `k = 1`, the code yields `1/2` while the claimed formula
`az0 + az_throw/π · asin(sin(2π·k/scan_period))` (no division by the sample
rate) yields `1`. -/
theorem constant_el_scan_formula_counterexample :
    cesAzFormula 2 1 2 0 1 = 1 / 2 ∧
    0 + 2 / Real.pi * Real.arcsin (Real.sin (2 * Real.pi * 1 / (2 * 2 / 1))) = 1 ∧
    (1 / 2 : ℝ) ≠ 1 ∧
    constant_el_scan_az 2 1 2 0 = Except.ok (cesAzFormula 2 1 2 0) := by
  have hpi := Real.pi_pos
  refine ⟨?_, ?_, by norm_num, ?_⟩
  · unfold cesAzFormula
    have h1 : 2 * Real.pi * ((1 : ℕ) : ℝ) / (2 * 2 / 1) / 2 = Real.pi / 4 := by
      push_cast; ring
    rw [h1, Real.arcsin_sin (by nlinarith) (by nlinarith)]
    field_simp
    ring
  · have h1 : 2 * Real.pi * 1 / (2 * 2 / 1) = Real.pi / 2 := by ring
    rw [h1, Real.sin_pi_div_two, Real.arcsin_one]
    field_simp
  · norm_num [constant_el_scan_az]

/-- C7 amended: for `scan_speed ≠ 0` and nonzero scan period, the azimuth at
sample `k` equals `az0 + az_throw/π · asin(sin(2π·k/(scan_period·fsamp)))` —
the claimed triangle-wave formula with the omitted division by the sample
rate restored. -/
theorem constant_el_scan_triangle_formula (az_throw scan_speed fsamp az0 : ℝ) (k : ℕ)
    (hs : scan_speed ≠ 0) (hp : 2 * az_throw / scan_speed ≠ 0) :
    constant_el_scan_az az_throw scan_speed fsamp az0 =
      Except.ok (cesAzFormula az_throw scan_speed fsamp az0) ∧
    cesAzFormula az_throw scan_speed fsamp az0 k =
      az0 + az_throw / Real.pi *
        Real.arcsin (Real.sin (2 * Real.pi * k / (2 * az_throw / scan_speed * fsamp))) := by
  constructor
  · simp [constant_el_scan_az, hs, hp]
  · unfold cesAzFormula
    rw [div_div]
    ring

/-- Witness for `constant_el_scan_triangle_formula` at
`az_throw = 2`, `scan_speed = 1`, `fsamp = 2`, `az0 = 0`, `k = 1`. -/
theorem constant_el_scan_triangle_formula_witness :
    (1 : ℝ) ≠ 0 ∧ (2 * 2 / 1 : ℝ) ≠ 0 ∧
    (constant_el_scan_az 2 1 2 0 = Except.ok (cesAzFormula 2 1 2 0) ∧
     cesAzFormula 2 1 2 0 1 =
       0 + 2 / Real.pi *
         Real.arcsin (Real.sin (2 * Real.pi * ((1 : ℕ) : ℝ) / (2 * 2 / 1 * 2)))) :=
  ⟨by norm_num, by norm_num,
   constant_el_scan_triangle_formula 2 1 2 0 1 (by norm_num) (by norm_num)⟩

/-- The continuous-HWP angle array computed by `ScanStrategy.scan`:
`np.linspace(start_ang, start_ang + 2π·tod_size/(freq·fsamp), num=tod_size,
endpoint=False)`.  `linspace(a, b, num=n, endpoint=False)` places its i-th
entry at `a + (b - a)·i/n`. -/
noncomputable def hwp_continuous (start_ang freq fsamp : ℝ) (tod_size i : ℕ) : ℝ :=
  start_ang + 2 * Real.pi * tod_size / (freq * fsamp) * i / tod_size

/-- C3: the continuous HWP ramps at `2π/freq` rad/s — the code divides by the
frequency where the claim (and the code's own comment `w = 2 pi freq`)
demands multiplication.  With `freq = 2` Hz, `fsamp = 1` Hz, a 2-sample
sub-chunk and start angle 0, sample `i = 1` gets angle π, while the claimed
`start + 2π·freq·i/fsamp` is `4π`, and `π ≠ 4π`. -/
theorem hwp_continuous_rate_bug :
    hwp_continuous 0 2 1 2 1 = Real.pi ∧
    0 + 2 * Real.pi * 2 * 1 / 1 = 4 * Real.pi ∧
    Real.pi ≠ 4 * Real.pi := by
  have hpi := Real.pi_pos
  refine ⟨?_, by ring, ?_⟩
  · unfold hwp_continuous
    push_cast
    ring
  · intro h
    nlinarith

/-- The healpy spherical-harmonic collaborator (external dependency):
coefficient-space filtering (`hp.almxfl`), scalar synthesis (`hp.alm2map`,
complex alm to a real map at a given nside) and two-component spin-weighted
synthesis (`hp.alm2map_spin` on a pair of alm arrays at a given nside, spin
and lmax, returning a pair of real maps). -/
structure HpOps where
  almxfl : List ℂ → List ℂ → List ℂ
  alm2map : List ℂ → ℕ → List ℝ
  alm2map_spin : List ℂ → List ℂ → ℕ → ℕ → ℕ → List ℝ × List ℝ

/-- The healpy contract for well-formed harmonic inputs: synthesis returns
full-sky maps of `12·nside²` pixels. -/
def HpOpsWf (ops : HpOps) : Prop :=
  (∀ a ns, (ops.alm2map a ns).length = 12 * ns ^ 2) ∧
  (∀ a b ns sp lm, (ops.alm2map_spin a b ns sp lm).1.length = 12 * ns ^ 2 ∧
      (ops.alm2map_spin a b ns sp lm).2.length = 12 * ns ^ 2)

/-- The unpolarized loop of `get_spinmaps` (`for n in xrange(self.N)`),
producing the rows of `self.func` in order; `P` is the allocated row length
`12·nside²` and `e = lmax + 1 - n` the beam-slice length for spin `n`.  The
`n = 0` row is `zeros(P) += alm2map(almxfl(alm[0], blm[0][start:start+end]))`;
a spin-`n > 0` row pads the beam slice into `bell` (zeros below multipole
`n`), forms `flmn`, its conjugate-kernel partner `flmmn`, the combinations
`flmnp = -(flmn+flmmn)/2`, `flmnm = 1j(flmn-flmmn)/2`, and stores the
two-component spin synthesis as `spinmaps[0] + 1j·spinmaps[1]`. -/
noncomputable def funcRows (ops : HpOps) (alm0 blm0 : List ℂ) (nside lmax P : ℕ) :
    ℕ → ℕ → ℕ → List (List ℂ)
  | _, _, 0 => []
  | n, start, fuel + 1 =>
      let e := lmax + 1 - n
      let row :=
        if n = 0 then
          List.zipWith (fun z r => z + r) (List.replicate P (0 : ℂ))
            ((ops.alm2map (ops.almxfl alm0 ((blm0.drop start).take e)) nside).map
              Complex.ofReal)
        else
          let bell := List.replicate n (0 : ℂ) ++ (blm0.drop start).take e
          let flmn := ops.almxfl alm0 bell
          let flmmn := ops.almxfl alm0 (bell.map (fun z => (starRingEnd ℂ) z))
          let flmnp := List.zipWith (fun a b => -((a + b) / 2)) flmn flmmn
          let flmnm := List.zipWith (fun a b => Complex.I * (a - b) / 2) flmn flmmn
          let sm := ops.alm2map_spin flmnp flmnm nside n lmax
          List.zipWith (fun a b => a + Complex.I * b)
            (sm.1.map Complex.ofReal) (sm.2.map Complex.ofReal)
      row :: funcRows ops alm0 blm0 nside lmax P (n + 1) (start + e) fuel

/-- The polarized loop of `get_spinmaps`, mutating the pre-allocated
`func_c` array `acc` (`2N-1` rows of `12·nside²` complex zeros): for each
spin `n` it pads the polarized beam slices into `bellp2`/`bellm2`, forms the
four coefficient products `ps_flm_p/m`, `ms_flm_p/m`, and writes the
positive-spin map into row `N+n-1` and the negative-spin map into row
`N-n-1` (`n = 0` writes only row `N-1`, via two scalar syntheses). -/
noncomputable def funcCRows (ops : HpOps) (almp2 almm2 blmm2 blmp2 : List ℂ)
    (N nside lmax : ℕ) : ℕ → ℕ → ℕ → List (List ℂ) → List (List ℂ)
  | _, _, 0, acc => acc
  | n, start, fuel + 1, acc =>
      let e := lmax + 1 - n
      let bellp2 := List.replicate n (0 : ℂ) ++ (blmp2.drop start).take e
      let bellm2 := List.replicate n (0 : ℂ) ++ (blmm2.drop start).take e
      let psP := List.zipWith (fun a b => -((a + b) / 2))
        (ops.almxfl almp2 bellm2)
        (ops.almxfl almm2 (bellm2.map (fun z => (starRingEnd ℂ) z)))
      let psM := List.zipWith (fun a b => (a - b) * (Complex.I / 2))
        (ops.almxfl almp2 bellm2)
        (ops.almxfl almm2 (bellm2.map (fun z => (starRingEnd ℂ) z)))
      let msP := List.zipWith (fun a b => -((a + b) / 2))
        (ops.almxfl almm2 bellp2)
        (ops.almxfl almp2 (bellp2.map (fun z => (starRingEnd ℂ) z)))
      let msM := List.zipWith (fun a b => (a - b) * (Complex.I / 2))
        (ops.almxfl almm2 bellp2)
        (ops.almxfl almp2 (bellp2.map (fun z => (starRingEnd ℂ) z)))
      let acc1 :=
        if n = 0 then
          let sm0 := ops.alm2map (psP.map (fun z => -z)) nside
          let sm1 := ops.alm2map (msM.map (fun z => -z)) nside
          acc.set (N - n - 1)
            (List.zipWith (fun a b => a - Complex.I * b)
              (sm0.map Complex.ofReal) (sm1.map Complex.ofReal))
        else
          let smp := ops.alm2map_spin psP psM nside n lmax
          let smm := ops.alm2map_spin msP msM nside n lmax
          (acc.set (N + n - 1)
            (List.zipWith (fun a b => a + Complex.I * b)
              (smp.1.map Complex.ofReal) (smp.2.map Complex.ofReal))).set
            (N - n - 1)
            (List.zipWith (fun a b => a - Complex.I * b)
              (smm.1.map Complex.ofReal) (smm.2.map Complex.ofReal))
      funcCRows ops almp2 almm2 blmm2 blmp2 N nside lmax (n + 1) (start + e) fuel acc1

/-- `ScanStrategy.get_spinmaps(alm, blm, max_spin)`: `N = max_spin + 1`;
`func = zeros((N, 12·nside²))` filled by the unpolarized loop;
`almp2 = -(almE + 1j·almB)`, `almm2 = -(almE - 1j·almB)`,
`blmm2 = blm[1]`, `blmp2 = blm[2]`; `func_c = zeros((2N-1, 12·nside²))`
filled by the polarized loop.  `lmax` is `hp.Alm.getlmax(alm[0].size)`
(external healpy utility). -/
noncomputable def get_spinmaps (ops : HpOps) (alm blm : List ℂ × List ℂ × List ℂ)
    (max_spin nside lmax : ℕ) : List (List ℂ) × List (List ℂ) :=
  let N := max_spin + 1
  let P := 12 * nside ^ 2
  let func := funcRows ops alm.1 blm.1 nside lmax P 0 0 N
  let almp2 := List.zipWith (fun e b => -(e + Complex.I * b)) alm.2.1 alm.2.2
  let almm2 := List.zipWith (fun e b => -(e - Complex.I * b)) alm.2.1 alm.2.2
  let blmm2 := blm.2.1
  let blmp2 := blm.2.2
  let func_c := funcCRows ops almp2 almm2 blmm2 blmp2 N nside lmax 0 0 N
    (List.replicate (2 * N - 1) (List.replicate P (0 : ℂ)))
  (func, func_c)

lemma funcRows_length (ops : HpOps) (a b : List ℂ) (nside lmax P : ℕ) :
    ∀ fuel n start, (funcRows ops a b nside lmax P n start fuel).length = fuel := by
  intro fuel
  induction fuel with
  | zero => intro n start; rfl
  | succ k ih => intro n start; simp only [funcRows, List.length_cons, ih]

lemma funcRows_row_length (ops : HpOps) (a b : List ℂ) (nside lmax : ℕ)
    (hwf : HpOpsWf ops) :
    ∀ fuel n start m, m ∈ funcRows ops a b nside lmax (12 * nside ^ 2) n start fuel →
      m.length = 12 * nside ^ 2 := by
  intro fuel
  induction fuel with
  | zero => intro n start m hm; simp [funcRows] at hm
  | succ k ih =>
      intro n start m hm
      simp only [funcRows] at hm
      rcases List.mem_cons.mp hm with h1 | h1
      · subst h1
        by_cases hn : n = 0
        · simp [hn, List.length_zipWith, hwf.1]
        · simp [hn, List.length_zipWith, (hwf.2 _ _ _ _ _).1, (hwf.2 _ _ _ _ _).2]
      · exact ih _ _ _ h1

lemma funcCRows_length (ops : HpOps) (ap am bm bp : List ℂ) (N nside lmax : ℕ) :
    ∀ fuel n start acc,
      (funcCRows ops ap am bm bp N nside lmax n start fuel acc).length = acc.length := by
  intro fuel
  induction fuel with
  | zero => intro n start acc; rfl
  | succ k ih =>
      intro n start acc
      simp only [funcCRows, ih]
      by_cases hn : n = 0 <;> simp [hn]

lemma funcCRows_row_length (ops : HpOps) (ap am bm bp : List ℂ) (N nside lmax : ℕ)
    (hwf : HpOpsWf ops) :
    ∀ fuel n start acc, (∀ m ∈ acc, m.length = 12 * nside ^ 2) →
      ∀ m ∈ funcCRows ops ap am bm bp N nside lmax n start fuel acc,
        m.length = 12 * nside ^ 2 := by
  intro fuel
  induction fuel with
  | zero => intro n start acc hacc m hm; exact hacc m hm
  | succ k ih =>
      intro n start acc hacc m hm
      simp only [funcCRows] at hm
      refine ih _ _ _ ?_ m hm
      intro m1 hm1
      by_cases hn : n = 0
      · simp only [hn, if_true] at hm1
        rcases List.mem_or_eq_of_mem_set hm1 with h1 | h1
        · exact hacc m1 h1
        · subst h1; simp [List.length_zipWith, hwf.1]
      · simp only [hn, if_false] at hm1
        rcases List.mem_or_eq_of_mem_set hm1 with h1 | h1
        · rcases List.mem_or_eq_of_mem_set h1 with h2 | h2
          · exact hacc m1 h2
          · subst h2
            simp [List.length_zipWith, (hwf.2 _ _ _ _ _).1, (hwf.2 _ _ _ _ _).2]
        · subst h1
          simp [List.length_zipWith, (hwf.2 _ _ _ _ _).1, (hwf.2 _ _ _ _ _).2]

/-- The shape invariant claimed for `get_spinmaps`: `len(func) = max_spin+1`,
`len(func_c) = 2·(max_spin+1)-1`, and every entry of both is a complex map of
`12·nside²` pixels. -/
def SpinmapShapesOk (ops : HpOps) (alm blm : List ℂ × List ℂ × List ℂ)
    (max_spin nside lmax : ℕ) : Prop :=
  (get_spinmaps ops alm blm max_spin nside lmax).1.length = max_spin + 1 ∧
  (get_spinmaps ops alm blm max_spin nside lmax).2.length = 2 * (max_spin + 1) - 1 ∧
  (∀ m ∈ (get_spinmaps ops alm blm max_spin nside lmax).1, m.length = 12 * nside ^ 2) ∧
  (∀ m ∈ (get_spinmaps ops alm blm max_spin nside lmax).2, m.length = 12 * nside ^ 2)

/-- C8: for every `max_spin ≥ 0` and well-formed sky/beam harmonics (healpy
synthesis returning full-sky maps), after `get_spinmaps` the unpolarized array
`func` has `max_spin+1` entries, the polarized array `func_c` has
`2·(max_spin+1)-1` entries, and every entry is a complex map with
`12·nside_spin²` pixels. -/
theorem get_spinmaps_shapes (ops : HpOps) (alm blm : List ℂ × List ℂ × List ℂ)
    (max_spin nside lmax : ℕ) (hwf : HpOpsWf ops) :
    SpinmapShapesOk ops alm blm max_spin nside lmax := by
  unfold SpinmapShapesOk get_spinmaps
  refine ⟨?_, ?_, ?_, ?_⟩
  · simp [funcRows_length]
  · simp [funcCRows_length]
  · intro m hm
    exact funcRows_row_length ops _ _ nside lmax hwf _ _ _ m hm
  · intro m hm
    refine funcCRows_row_length ops _ _ _ _ _ nside lmax hwf _ _ _ _ ?_ m hm
    intro m1 hm1
    rw [List.eq_of_mem_replicate hm1]
    simp

/-- A trivial healpy collaborator used as a witness: filtering is the
identity and synthesis returns zero maps of the contracted size. -/
noncomputable def trivHpOps : HpOps :=
  ⟨fun a _ => a, fun _ ns => List.replicate (12 * ns ^ 2) 0,
   fun _ _ ns _ _ => (List.replicate (12 * ns ^ 2) 0, List.replicate (12 * ns ^ 2) 0)⟩

/-- Witness for `get_spinmaps_shapes` at `max_spin = 2`, `nside = 1`,
`lmax = 3`. -/
theorem get_spinmaps_shapes_witness :
    HpOpsWf trivHpOps ∧ SpinmapShapesOk trivHpOps ⟨[], [], []⟩ ⟨[], [], []⟩ 2 1 3 := by
  have hwf : HpOpsWf trivHpOps := by
    constructor
    · intro a ns; simp [trivHpOps]
    · intro a b ns sp lm; constructor <;> simp [trivHpOps]
  exact ⟨hwf, get_spinmaps_shapes trivHpOps ⟨[], [], []⟩ ⟨[], [], []⟩ 2 1 3 hwf⟩
